import Mathlib

/-!
# A verification development for `models/models.go` (gotests)

The file `src/models/models.go` is the source-model layer of a test-stub
generator.  This development embeds it in Lean and proves properties of
its selection algorithm (`SourceInfo.TestableFuncs`), of the reflection
query (`SourceInfo.UsesReflection`), of the rendering and classification
helpers (`Expression.String`, `Field.IsBasicType`), of the derived names
(`Function.TestName`, `Field.ShortName`) and of the path naming
(`Path.TestPath`, `Path.IsTestPath`).

## Conventions of the embedding

* A Go `string` is a Lean `String`, read as its sequence of code points.
  Go compares strings bytewise; on valid UTF-8 that is the lexicographic
  order of the code points, which is the order `strLE` below.
* A Go slice is a `List`; `len` is `List.length`; `append(fs, f)` is
  `fs ++ [f]`; a nil slice is `[]`.
* The field `Type` of `Field` is named `Typ`, `Type` being reserved.
* A pointer that the code compares with `nil` (`Function.Receiver`, the
  two `*regexp.Regexp` arguments) is an `Option`.  A pointer that the code
  dereferences without a check (`Field.Type`, the elements of `Funcs`,
  `Parameters` and `Results`) is the value it points to.  `Header` is
  never read by the code and is kept optional.
* A compiled `*regexp.Regexp` is taken as its `MatchString` predicate.
* A method that can panic returns an `Option`, `none` being the panic
  (`Field.ShortName`); a method that writes to its argument returns the
  argument's final contents with its result (`SourceInfo.TestableFuncsCall`).
* The standard library functions the code calls (`sort.Strings`,
  `sort.SearchStrings`, `strings.Title`, `strings.ToLower`,
  `strings.HasSuffix`, `strings.TrimSuffix`) are transcribed from the Go
  standard library.  The Unicode tables behind `unicode.ToTitle`,
  `unicode.ToLower`, `unicode.IsLetter`, `unicode.IsDigit` and
  `unicode.IsSpace` are a parameter (`UnicodeTables`), consulted only for
  code points above `0x7F`; the ASCII range is transcribed.
-/

namespace Models

/-! ## Go strings and the standard library -/

/-- Go's `a <= b` on strings: lexicographic order of the code points. -/
def strLE (a b : String) : Prop := a.data ≤ b.data

instance strLE.decidable : DecidableRel strLE :=
  fun a b => inferInstanceAs (Decidable (a.data ≤ b.data))

/-- The function `strings.HasSuffix(s, suffix)`. -/
def HasSuffix (s suffix : String) : Bool :=
  suffix.data.isSuffixOf s.data

/-- The function `strings.HasPrefix(s, p)`. -/
def HasPrefix (s p : String) : Bool :=
  p.data.isPrefixOf s.data

/-- The function `strings.TrimSuffix(s, suffix)`: `s` without the trailing
`suffix` when it has one, else `s`. -/
def TrimSuffix (s suffix : String) : String :=
  if HasSuffix s suffix then
    ⟨s.data.take (s.data.length - suffix.data.length)⟩
  else s

/-- The Unicode tables of Go's `unicode` package, used above `0x7F`. -/
structure UnicodeTables where
  ToTitle : Char → Char
  ToLower : Char → Char
  IsLetter : Char → Bool
  IsDigit : Char → Bool
  IsSpace : Char → Bool

/-- Tables without case or class above `0x7F`; enough to evaluate the
definitions on ASCII names. -/
def UnicodeTables.ascii : UnicodeTables where
  ToTitle := fun r => r
  ToLower := fun r => r
  IsLetter := fun _ => false
  IsDigit := fun _ => false
  IsSpace := fun _ => false

/-- The function `unicode.ToTitle(r)`. -/
def unicodeToTitle (U : UnicodeTables) (r : Char) : Char :=
  if r.toNat ≤ 0x7F then
    if 'a'.toNat ≤ r.toNat ∧ r.toNat ≤ 'z'.toNat then Char.ofNat (r.toNat - 32) else r
  else U.ToTitle r

/-- The function `unicode.ToLower(r)`. -/
def unicodeToLower (U : UnicodeTables) (r : Char) : Char :=
  if r.toNat ≤ 0x7F then
    if 'A'.toNat ≤ r.toNat ∧ r.toNat ≤ 'Z'.toNat then Char.ofNat (r.toNat + 32) else r
  else U.ToLower r

/-- The function `isSeparator` of package `strings`. -/
def isSeparator (U : UnicodeTables) (r : Char) : Bool :=
  if r.toNat ≤ 0x7F then
    if '0'.toNat ≤ r.toNat ∧ r.toNat ≤ '9'.toNat then false
    else if 'a'.toNat ≤ r.toNat ∧ r.toNat ≤ 'z'.toNat then false
    else if 'A'.toNat ≤ r.toNat ∧ r.toNat ≤ 'Z'.toNat then false
    else if r = '_' then false
    else true
  else if U.IsLetter r || U.IsDigit r then false
  else U.IsSpace r

/-- The mapping closure of `strings.Title`, run over the runes of the
string; `prev` is the closure's remembered rune. -/
def Title.go (U : UnicodeTables) : Char → List Char → List Char
  | _, [] => []
  | prev, r :: rs =>
    (if isSeparator U prev then unicodeToTitle U r else r) :: Title.go U r rs

/-- The function `strings.Title(s)`; the closure starts with `prev = ' '`. -/
def Title (U : UnicodeTables) (s : String) : String :=
  ⟨Title.go U ' ' s.data⟩

/-- The function `strings.ToLower(s)`. -/
def ToLower (U : UnicodeTables) (s : String) : String :=
  ⟨s.data.map (unicodeToLower U)⟩

/-- The function `sort.Strings(x)`: `x` in ascending order.  The ascending
arrangement of a list of strings is unique, so the algorithm is immaterial;
insertion sort is used. -/
def sortStrings (x : List String) : List String :=
  x.insertionSort strLE

/-- The loop of `sort.Search`:
`for i < j { h := int(uint(i+j) >> 1); if !f(h) { i = h + 1 } else { j = h } }; return i`.
The recursion is on a bound `fuel` of the remaining width `j - i`, so with
no fuel left the loop condition `i < j` is false and the loop has exited. -/
def Search.loop (f : Nat → Bool) : (fuel i j : Nat) → j - i ≤ fuel → Nat
  | 0, i, _, _ => i
  | fuel + 1, i, j, hf =>
    if hij : i < j then
      if !f ((i + j) / 2) then Search.loop f fuel ((i + j) / 2 + 1) j (by omega)
      else Search.loop f fuel i ((i + j) / 2) (by omega)
    else i

/-- The function `sort.Search(n, f)`. -/
def Search (n : Nat) (f : Nat → Bool) : Nat :=
  Search.loop f n 0 n (Nat.sub_le n 0)

/-- The function `sort.SearchStrings(a, x)`:
`Search(len(a), func(i int) bool { return a[i] >= x })`.  `Search` calls
the closure only at indices below `len(a)`. -/
def SearchStrings (a : List String) (x : String) : Nat :=
  Search a.length (fun i => decide (strLE x (a.getD i "")))

/-! ## The data model -/

structure Expression where
  Value : String
  IsStar : Bool
  IsVariadic : Bool
  deriving DecidableEq, Repr

def Expression.String (e : Expression) : String :=
  let value := e.Value
  let value := if e.IsStar then "*" ++ value else value
  if e.IsVariadic then "[]" ++ value else value

structure Field where
  Name : String
  Typ : Expression
  Index : Int
  deriving DecidableEq, Repr

def Field.IsBasicType (f : Field) : Bool :=
  match f.Typ.String with
  | "bool" | "string" | "int" | "int8" | "int16" | "int32" | "int64" | "uint"
  | "uint8" | "uint16" | "uint32" | "uint64" | "uintptr" | "byte" | "rune"
  | "float32" | "float64" | "complex64" | "complex128" => true
  | _ => false

def Field.IsNamed (f : Field) : Bool :=
  f.Name != "" && f.Name != "_"

/-- The method `ShortName`; `none` is the run-time panic of indexing the
empty rune slice at `0`. -/
def Field.ShortName (U : UnicodeTables) (f : Field) : Option String :=
  match f.Typ.Value.data with
  | [] => none
  | r :: _ => some (ToLower U (String.singleton r))

structure Function where
  Name : String
  IsExported : Bool
  Receiver : Option Field
  Parameters : List Field
  Results : List Field
  ReturnsError : Bool
  deriving DecidableEq, Repr

def Function.ReturnsMultiple (f : Function) : Bool :=
  decide (f.Results.length > 1)

def Function.OnlyReturnsOneValue (f : Function) : Bool :=
  decide (f.Results.length = 1) && !f.ReturnsError

def Function.OnlyReturnsError (f : Function) : Bool :=
  decide (f.Results.length = 0) && f.ReturnsError

def Function.TestName (U : UnicodeTables) (f : Function) : String :=
  let r : String :=
    match f.Receiver with
    | some recv => recv.Typ.Value
    | none => ""
  "Test" ++ Title U r ++ Title U f.Name

structure Import where
  Name : String
  Path : String
  deriving DecidableEq, Repr

structure Header where
  Package : String
  Imports : List Import
  Code : List Nat
  deriving DecidableEq, Repr

structure SourceInfo where
  Header : Option Header
  Funcs : List Function
  deriving DecidableEq, Repr

/-- A compiled `*regexp.Regexp`, as its `MatchString` method. -/
structure Regexp where
  MatchString : String → Bool

/-- The function `contains(ss, s)`; the index `ss[i]` is guarded by
`i < len(ss)`. -/
def contains (ss : List String) (s : String) : Bool :=
  let i := SearchStrings ss s
  if decide (i < ss.length) && decide (ss.getD i "" = s) then true else false

/-- One iteration of the loop of `TestableFuncs` on the function `f`;
`fs` is the slice built so far, `testFuncs` the sorted slice. -/
def TestableFuncs.body (U : UnicodeTables) (only excl : Option Regexp)
    (testFuncs : List String) (fs : List Function) (f : Function) : List Function :=
  if f.Receiver.isNone && decide (f.Parameters.length = 0)
      && decide (f.Results.length = 0) then fs
  else if decide (testFuncs.length > 0) && contains testFuncs (f.TestName U) then fs
  else if (match excl with
      | some re => re.MatchString f.Name
      | none => false) then fs
  else if (match only with
      | some re => !re.MatchString f.Name
      | none => false) then fs
  else fs ++ [f]

/-- What a call of `TestableFuncs` leaves behind: the returned slice, the
contents of the caller's `testFuncs` slice, which `sort.Strings` sorts in
place, and the receiver's `Funcs`, which the method only ranges over. -/
structure TestableFuncsResult where
  ret : List Function
  testFuncs : List String
  Funcs : List Function

/-- The method `TestableFuncs`, with its effect on the argument slice. -/
def SourceInfo.TestableFuncsCall (U : UnicodeTables) (i : SourceInfo)
    (only excl : Option Regexp) (testFuncs : List String) : TestableFuncsResult :=
  let testFuncs := sortStrings testFuncs
  let fs := i.Funcs.foldl (TestableFuncs.body U only excl testFuncs) []
  { ret := fs, testFuncs := testFuncs, Funcs := i.Funcs }

/-- The value returned by the method `TestableFuncs`. -/
def SourceInfo.TestableFuncs (U : UnicodeTables) (i : SourceInfo)
    (only excl : Option Regexp) (testFuncs : List String) : List Function :=
  (i.TestableFuncsCall U only excl testFuncs).ret

/-- The inner loop of `UsesReflection` over the results of one function:
`true` when the loop returns `true`, `false` when it runs to its end. -/
def UsesReflection.results : List Field → Bool
  | [] => false
  | r :: rs => if !r.IsBasicType then true else UsesReflection.results rs

/-- The outer loop of `UsesReflection` over the functions. -/
def UsesReflection.funcs : List Function → Bool
  | [] => false
  | f :: fs => if UsesReflection.results f.Results then true else UsesReflection.funcs fs

def SourceInfo.UsesReflection (i : SourceInfo) : Bool :=
  UsesReflection.funcs i.Funcs

/-- The Go type `Path`, a string. -/
abbrev Path := String

def Path.IsTestPath (p : Path) : Bool :=
  HasSuffix p "_test.go"

def Path.TestPath (p : Path) : String :=
  if Path.IsTestPath p then p
  else TrimSuffix p ".go" ++ "_test.go"

/-- The names listed in the `switch` of `IsBasicType`, in source order. -/
def basicTypeNames : List String :=
  ["bool", "string", "int", "int8", "int16", "int32", "int64", "uint",
   "uint8", "uint16", "uint32", "uint64", "uintptr", "byte", "rune",
   "float32", "float64", "complex64", "complex128"]

/-! ## The selection as the specification words it -/

/-- Condition (a) of the specification: the function has a receiver, or at
least one parameter, or at least one result. -/
def hasSignature (f : Function) : Bool :=
  f.Receiver.isSome || decide (0 < f.Parameters.length) || decide (0 < f.Results.length)

/-- Conditions (c) and (d) of the specification: `excl` is absent or the
name does not match it, and `only` is absent or the name matches it. -/
def passesFilters (only excl : Option Regexp) (f : Function) : Bool :=
  (match excl with
    | none => true
    | some re => !re.MatchString f.Name) &&
  (match only with
    | none => true
    | some re => re.MatchString f.Name)

/-- The selection condition of the specification: (a), (b) the test name is
not an element of `alreadyTested`, (c) and (d). -/
def selected (U : UnicodeTables) (only excl : Option Regexp)
    (alreadyTested : List String) (f : Function) : Bool :=
  hasSignature f && decide (f.TestName U ∉ alreadyTested) && passesFilters only excl f

/-! ## Sample inputs -/

def sampleField (ty : Expression) : Field := { Name := "x", Typ := ty, Index := 0 }

def fnGetUser : Function :=
  { Name := "GetUser", IsExported := true, Receiver := none,
    Parameters := [sampleField ⟨"int", false, false⟩],
    Results := [sampleField ⟨"User", true, false⟩], ReturnsError := true }

def fnGetInternal : Function :=
  { Name := "GetInternal", IsExported := true, Receiver := none,
    Parameters := [sampleField ⟨"string", false, false⟩],
    Results := [sampleField ⟨"int", false, false⟩], ReturnsError := false }

def fnInit : Function :=
  { Name := "init", IsExported := false, Receiver := none,
    Parameters := [], Results := [], ReturnsError := false }

def fnSetName : Function :=
  { Name := "setName", IsExported := false,
    Receiver := some { Name := "u", Typ := ⟨"User", true, false⟩, Index := 0 },
    Parameters := [sampleField ⟨"string", false, false⟩],
    Results := [], ReturnsError := false }

def sampleInfo : SourceInfo :=
  { Header := none, Funcs := [fnGetUser, fnInit, fnGetInternal, fnSetName] }

def fnPair : Function :=
  { Name := "Pair", IsExported := true, Receiver := none, Parameters := [],
    Results := [sampleField ⟨"int", false, false⟩, sampleField ⟨"User", true, false⟩],
    ReturnsError := false }

def fnPairSwapped : Function :=
  { Name := "Pair", IsExported := true, Receiver := none, Parameters := [],
    Results := [sampleField ⟨"User", true, false⟩, sampleField ⟨"int", false, false⟩],
    ReturnsError := false }

def basicInfo : SourceInfo :=
  { Header := none, Funcs := [fnInit, fnGetInternal] }

def fnFooBarMethod : Function :=
  { Name := "bar", IsExported := false,
    Receiver := some { Name := "f", Typ := ⟨"Foo", true, false⟩, Index := 0 },
    Parameters := [sampleField ⟨"int", false, false⟩],
    Results := [], ReturnsError := false }

def fnFooBarFree : Function :=
  { Name := "FooBar", IsExported := true, Receiver := none,
    Parameters := [sampleField ⟨"string", false, false⟩],
    Results := [sampleField ⟨"int", false, false⟩], ReturnsError := false }

def fnBaz : Function :=
  { Name := "baz", IsExported := false, Receiver := none,
    Parameters := [sampleField ⟨"int", false, false⟩],
    Results := [], ReturnsError := false }

def collisionInfo : SourceInfo :=
  { Header := none, Funcs := [fnFooBarMethod, fnFooBarFree] }

def fnBlankReceiver : Function :=
  { Name := "baz", IsExported := false,
    Receiver := some { Name := "r", Typ := ⟨"", false, false⟩, Index := 0 },
    Parameters := [sampleField ⟨"int", false, false⟩],
    Results := [], ReturnsError := false }

def reGet : Regexp := ⟨fun s => HasPrefix s "Get"⟩

def reInternal : Regexp := ⟨fun s => HasSuffix s "Internal"⟩

/-! ## The order on strings -/

theorem strLE_refl (a : String) : strLE a a := le_refl a.data

theorem strLE_total (a b : String) : strLE a b ∨ strLE b a := le_total a.data b.data

theorem strLE_trans {a b c : String} (hab : strLE a b) (hbc : strLE b c) : strLE a c :=
  le_trans hab hbc

theorem strLE_antisymm {a b : String} (hab : strLE a b) (hba : strLE b a) : a = b :=
  String.ext (le_antisymm hab hba)

/-- The model of `sort.Strings` returns an ascending list. -/
theorem sortStrings_sorted (x : List String) : (sortStrings x).Sorted strLE :=
  @List.sorted_insertionSort _ strLE _ ⟨strLE_total⟩ ⟨fun _ _ _ => strLE_trans⟩ x

/-- The model of `sort.Strings` rearranges its argument. -/
theorem sortStrings_perm (x : List String) : (sortStrings x).Perm x :=
  List.perm_insertionSort strLE x

theorem mem_sortStrings (x : List String) (s : String) : s ∈ sortStrings x ↔ s ∈ x :=
  (sortStrings_perm x).mem_iff

/-! ## Binary search -/

/-- The loop of `sort.Search` keeps its invariant: on a predicate that is
monotone below `n`, started with `f` false below `i` and true from `j` on, it
ends at an index below which `f` is false and from which `f` is true. -/
theorem Search.loop_spec (f : Nat → Bool) (n : Nat)
    (mono : ∀ a b, a ≤ b → b < n → f a = true → f b = true) :
    ∀ (fuel i j : Nat) (hf : j - i ≤ fuel), i ≤ j → j ≤ n →
      (∀ k, k < i → f k = false) → (∀ k, j ≤ k → k < n → f k = true) →
      Search.loop f fuel i j hf ≤ n ∧
      (∀ k, k < Search.loop f fuel i j hf → f k = false) ∧
      (∀ k, Search.loop f fuel i j hf ≤ k → k < n → f k = true) := by
  intro fuel
  induction fuel with
  | zero =>
    intro i j hf hij hjn hlo hhi
    have hji : j = i := by omega
    subst hji
    exact ⟨hjn, hlo, hhi⟩
  | succ fuel ih =>
    intro i j hf hij hjn hlo hhi
    unfold Search.loop
    by_cases hlt : i < j
    · rw [dif_pos hlt]
      have hh1 : i ≤ (i + j) / 2 := by omega
      have hh2 : (i + j) / 2 < j := by omega
      cases hfh : f ((i + j) / 2) with
      | false =>
        simp only [Bool.not_false, if_true]
        apply ih
        · omega
        · exact hjn
        · intro k hk
          cases hfk : f k with
          | false => rfl
          | true =>
            have := mono k ((i + j) / 2) (by omega) (by omega) hfk
            rw [hfh] at this
            exact this.symm
        · exact hhi
      | true =>
        simp only [Bool.not_true, Bool.false_eq_true, if_false]
        apply ih
        · exact hh1
        · omega
        · exact hlo
        · intro k hk hkn
          exact mono ((i + j) / 2) k hk hkn hfh
    · rw [dif_neg hlt]
      have hji : j = i := by omega
      subst hji
      exact ⟨hjn, hlo, hhi⟩

/-- On an ascending list, `sort.SearchStrings` returns the least index whose
element is at least `x`, or the length when there is none. -/
theorem SearchStrings_spec (a : List String) (x : String) (hs : a.Sorted strLE) :
    SearchStrings a x ≤ a.length ∧
    (∀ k, k < SearchStrings a x → ¬ strLE x (a.getD k "")) ∧
    (∀ k, SearchStrings a x ≤ k → k < a.length → strLE x (a.getD k "")) := by
  have mono : ∀ p q, p ≤ q → q < a.length →
      (fun i => decide (strLE x (a.getD i ""))) p = true →
      (fun i => decide (strLE x (a.getD i ""))) q = true := by
    intro p q hpq hq hp
    simp only [decide_eq_true_eq] at hp ⊢
    rcases Nat.eq_or_lt_of_le hpq with h | h
    · subst h; exact hp
    · have hp' : p < a.length := by omega
      have := (List.pairwise_iff_getElem.mp hs) p q hp' hq h
      rw [List.getD_eq_getElem a "" hp'] at hp
      rw [List.getD_eq_getElem a "" hq]
      exact strLE_trans hp this
  have h := Search.loop_spec _ a.length mono a.length 0 a.length (Nat.sub_le _ 0)
    (Nat.zero_le _) (le_refl _) (fun k hk => absurd hk (Nat.not_lt_zero k))
    (fun k hk hkn => absurd hkn (Nat.not_lt.mpr hk))
  obtain ⟨h1, h2, h3⟩ := h
  refine ⟨h1, ?_, ?_⟩
  · intro k hk
    have := h2 k hk
    simpa using this
  · intro k hk hkn
    have := h3 k hk hkn
    simpa using this

/-- On an ascending list, `contains` decides membership. -/
theorem contains_iff_mem (ss : List String) (s : String) (hs : ss.Sorted strLE) :
    contains ss s = true ↔ s ∈ ss := by
  obtain ⟨h1, h2, h3⟩ := SearchStrings_spec ss s hs
  unfold contains
  simp only [Bool.and_eq_true, decide_eq_true_eq, Bool.if_true_left, Bool.or_false,
    Bool.decide_and, ite_eq_left_iff, Bool.not_eq_true, reduceCtorEq, imp_false,
    Bool.not_eq_false]
  constructor
  · rintro ⟨hlt, heq⟩
    rw [List.getD_eq_getElem ss "" hlt] at heq
    exact heq ▸ List.getElem_mem _
  · intro hmem
    obtain ⟨k, hk, hks⟩ := List.mem_iff_getElem.mp hmem
    have hik : SearchStrings ss s ≤ k := by
      by_contra hcon
      have := h2 k (Nat.lt_of_not_le hcon)
      rw [List.getD_eq_getElem ss "" hk, hks] at this
      exact this (strLE_refl s)
    have hlt : SearchStrings ss s < ss.length := lt_of_le_of_lt hik hk
    refine ⟨hlt, ?_⟩
    have hge := h3 _ (le_refl _) hlt
    rw [List.getD_eq_getElem ss "" hlt] at hge ⊢
    rcases Nat.eq_or_lt_of_le hik with h | h
    · simp only [h]; exact hks
    · have := (List.pairwise_iff_getElem.mp hs) _ k hlt hk h
      rw [hks] at this
      exact strLE_antisymm this hge

/-- After `sort.Strings`, `contains` decides membership in the given list. -/
theorem contains_sortStrings (t : List String) (s : String) :
    contains (sortStrings t) s = true ↔ s ∈ t :=
  (contains_iff_mem _ s (sortStrings_sorted t)).trans (mem_sortStrings t s)

/-! ## The selection loop -/

/-- The membership test of the loop, guard included, decides membership in
the list the caller passed. -/
theorem guarded_contains (t : List String) (s : String) :
    (decide ((sortStrings t).length > 0) && contains (sortStrings t) s) = decide (s ∈ t) := by
  by_cases h : s ∈ t
  · have hc : contains (sortStrings t) s = true := (contains_sortStrings t s).mpr h
    have hm : s ∈ sortStrings t := (mem_sortStrings t s).mpr h
    have hl : (sortStrings t).length > 0 := List.length_pos_of_mem hm
    simp [hc, hl, h]
  · have hc : contains (sortStrings t) s = false := by
      cases hb : contains (sortStrings t) s with
      | false => rfl
      | true => exact absurd ((contains_sortStrings t s).mp hb) h
    simp [hc, h]

/-- One iteration of the loop appends the function exactly when the
specification selects it. -/
theorem body_eq (U : UnicodeTables) (only excl : Option Regexp) (t : List String)
    (fs : List Function) (f : Function) :
    TestableFuncs.body U only excl (sortStrings t) fs f =
      if selected U only excl t f then fs ++ [f] else fs := by
  unfold TestableFuncs.body
  rw [guarded_contains]
  unfold selected hasSignature passesFilters
  obtain ⟨name, ex, recv, ps, rs, re⟩ := f
  generalize hn : Function.TestName U ⟨name, ex, recv, ps, rs, re⟩ = tn
  rcases only with _ | ro <;> rcases excl with _ | rx <;>
    rcases recv with _ | recv <;> rcases ps with _ | ⟨p, ps⟩ <;> rcases rs with _ | ⟨r, rs⟩ <;>
    by_cases hm : tn ∈ t <;> simp [hm] <;> split_ifs <;> simp_all

theorem foldl_body_eq (U : UnicodeTables) (only excl : Option Regexp) (t : List String)
    (l : List Function) : ∀ fs : List Function,
    l.foldl (TestableFuncs.body U only excl (sortStrings t)) fs =
      fs ++ l.filter (selected U only excl t) := by
  induction l with
  | nil => intro fs; simp
  | cons f l ih =>
    intro fs
    rw [List.foldl_cons, ih, body_eq, List.filter_cons]
    by_cases h : selected U only excl t f = true
    · simp [h]
    · simp [h]

/-- The loop of `TestableFuncs` computes the filter of the specification. -/
theorem TestableFuncs_eq_filter (U : UnicodeTables) (i : SourceInfo)
    (only excl : Option Regexp) (t : List String) :
    i.TestableFuncs U only excl t = i.Funcs.filter (selected U only excl t) := by
  unfold SourceInfo.TestableFuncs SourceInfo.TestableFuncsCall
  simp only [foldl_body_eq, List.nil_append]

theorem hasSignature_iff (f : Function) :
    hasSignature f = true ↔ f.Receiver ≠ none ∨ f.Parameters ≠ [] ∨ f.Results ≠ [] := by
  obtain ⟨name, ex, recv, ps, rs, re⟩ := f
  rcases recv with _ | recv <;> rcases ps with _ | ⟨p, ps⟩ <;> rcases rs with _ | ⟨r, rs⟩ <;>
    simp [hasSignature]

theorem passesFilters_iff (only excl : Option Regexp) (f : Function) :
    passesFilters only excl f = true ↔
      (∀ re, excl = some re → re.MatchString f.Name = false) ∧
      (∀ re, only = some re → re.MatchString f.Name = true) := by
  rcases only with _ | ro <;> rcases excl with _ | rx <;> simp [passesFilters]

theorem selected_iff (U : UnicodeTables) (only excl : Option Regexp) (t : List String)
    (f : Function) :
    selected U only excl t f = true ↔
      (f.Receiver ≠ none ∨ f.Parameters ≠ [] ∨ f.Results ≠ []) ∧
      f.TestName U ∉ t ∧
      (∀ re, excl = some re → re.MatchString f.Name = false) ∧
      (∀ re, only = some re → re.MatchString f.Name = true) := by
  unfold selected
  rw [Bool.and_eq_true, Bool.and_eq_true, hasSignature_iff, passesFilters_iff,
    decide_eq_true_eq, and_assoc]

theorem mem_TestableFuncs (U : UnicodeTables) (i : SourceInfo) (only excl : Option Regexp)
    (t : List String) (f : Function) :
    f ∈ i.TestableFuncs U only excl t ↔ f ∈ i.Funcs ∧ selected U only excl t f = true := by
  rw [TestableFuncs_eq_filter, List.mem_filter]

/-! ## The selection: the claims about `TestableFuncs` -/

/-- C1. `TestableFuncs(only, excl, alreadyTested)` is the list of the
functions of `Funcs`, in their original order, that the specification
selects; a function is selected exactly when (a) it has a receiver, a
parameter or a result, (b) its test name is not an element of
`alreadyTested`, (c) `excl` is absent or does not match its name, and
(d) `only` is absent or matches its name. -/
theorem TestableFuncs_is_selection (U : UnicodeTables) (i : SourceInfo)
    (only excl : Option Regexp) (alreadyTested : List String) :
    i.TestableFuncs U only excl alreadyTested
        = i.Funcs.filter (selected U only excl alreadyTested) ∧
    ∀ f : Function, selected U only excl alreadyTested f = true ↔
      (f.Receiver ≠ none ∨ f.Parameters ≠ [] ∨ f.Results ≠ []) ∧
      f.TestName U ∉ alreadyTested ∧
      (∀ re, excl = some re → re.MatchString f.Name = false) ∧
      (∀ re, only = some re → re.MatchString f.Name = true) :=
  ⟨TestableFuncs_eq_filter U i only excl alreadyTested,
    selected_iff U only excl alreadyTested⟩

theorem TestableFuncs_is_selection_witness :
    sampleInfo.TestableFuncs UnicodeTables.ascii (some reGet) (some reInternal) ["TestUserSetName"]
      = [fnGetUser] :=
  (TestableFuncs_is_selection UnicodeTables.ascii sampleInfo (some reGet) (some reInternal)
    ["TestUserSetName"]).1.trans (by decide)

/-- C2. The result of `TestableFuncs` does not depend on the order of
`alreadyTested`, and a function of `Funcs` that passes the signature and
filter conditions is dropped if and only if its test name is an element of
the list. -/
theorem TestableFuncs_alreadyTested_perm (U : UnicodeTables) (i : SourceInfo)
    (only excl : Option Regexp) (t1 t2 : List String) (hperm : t1.Perm t2) :
    i.TestableFuncs U only excl t1 = i.TestableFuncs U only excl t2 ∧
    ∀ f ∈ i.Funcs, hasSignature f = true → passesFilters only excl f = true →
      (f ∉ i.TestableFuncs U only excl t1 ↔ f.TestName U ∈ t1) := by
  constructor
  · rw [TestableFuncs_eq_filter, TestableFuncs_eq_filter]
    apply List.filter_congr
    intro f _
    unfold selected
    rw [decide_eq_decide.mpr (not_congr hperm.mem_iff)]
  · intro f hf hsig hpass
    rw [mem_TestableFuncs]
    unfold selected
    simp [hf, hsig, hpass]

theorem TestableFuncs_alreadyTested_perm_witness :
    ["TestGetInternal", "TestGetUser"].Perm ["TestGetUser", "TestGetInternal"] ∧
    (sampleInfo.TestableFuncs UnicodeTables.ascii none none ["TestGetInternal", "TestGetUser"]
        = sampleInfo.TestableFuncs UnicodeTables.ascii none none
            ["TestGetUser", "TestGetInternal"] ∧
      ∀ f ∈ sampleInfo.Funcs, hasSignature f = true → passesFilters none none f = true →
        (f ∉ sampleInfo.TestableFuncs UnicodeTables.ascii none none
              ["TestGetInternal", "TestGetUser"]
          ↔ f.TestName UnicodeTables.ascii ∈ ["TestGetInternal", "TestGetUser"])) :=
  ⟨by decide, TestableFuncs_alreadyTested_perm UnicodeTables.ascii sampleInfo none none
    ["TestGetInternal", "TestGetUser"] ["TestGetUser", "TestGetInternal"] (by decide)⟩

/-- C3. With both filters absent and nothing already tested,
`TestableFuncs` returns the functions of `Funcs` that have a receiver, a
parameter or a result, and only those, in declaration order. -/
theorem TestableFuncs_no_filters (U : UnicodeTables) (i : SourceInfo) :
    i.TestableFuncs U none none [] =
      i.Funcs.filter (fun f =>
        f.Receiver.isSome || decide (0 < f.Parameters.length)
          || decide (0 < f.Results.length)) := by
  rw [TestableFuncs_eq_filter]
  apply List.filter_congr
  intro f _
  simp [selected, hasSignature, passesFilters]

/-- C4. With both filters present and nothing already tested, a function
is returned by `TestableFuncs` if and only if it is a function of `Funcs`
with a receiver, a parameter or a result whose name matches `only` and
does not match `excl`. -/
theorem TestableFuncs_both_filters (U : UnicodeTables) (i : SourceInfo)
    (only excl : Regexp) (f : Function) :
    f ∈ i.TestableFuncs U (some only) (some excl) [] ↔
      f ∈ i.Funcs ∧ (f.Receiver ≠ none ∨ f.Parameters ≠ [] ∨ f.Results ≠ []) ∧
      only.MatchString f.Name = true ∧ excl.MatchString f.Name = false := by
  rw [mem_TestableFuncs, selected_iff]
  simp
  tauto

theorem TestableFuncs_both_filters_witness :
    fnGetUser ∈ sampleInfo.TestableFuncs UnicodeTables.ascii (some reGet) (some reInternal) [] ↔
      fnGetUser ∈ sampleInfo.Funcs ∧
      (fnGetUser.Receiver ≠ none ∨ fnGetUser.Parameters ≠ [] ∨ fnGetUser.Results ≠ []) ∧
      reGet.MatchString fnGetUser.Name = true ∧ reInternal.MatchString fnGetUser.Name = false :=
  TestableFuncs_both_filters UnicodeTables.ascii sampleInfo reGet reInternal fnGetUser

/-- C5. No function returned by `TestableFuncs` has at once no receiver,
no parameters and no results. -/
theorem TestableFuncs_never_empty_signature (U : UnicodeTables) (i : SourceInfo)
    (only excl : Option Regexp) (alreadyTested : List String) (f : Function)
    (hf : f ∈ i.TestableFuncs U only excl alreadyTested) :
    ¬ (f.Receiver = none ∧ f.Parameters = [] ∧ f.Results = []) := by
  rw [mem_TestableFuncs, selected_iff] at hf
  rintro ⟨h1, h2, h3⟩
  rcases hf.2.1 with h | h | h
  · exact h h1
  · exact h h2
  · exact h h3

theorem TestableFuncs_never_empty_signature_witness :
    fnGetUser ∈ sampleInfo.TestableFuncs UnicodeTables.ascii none (some reInternal)
        ["TestUserSetName"] ∧
    ¬ (fnGetUser.Receiver = none ∧ fnGetUser.Parameters = [] ∧ fnGetUser.Results = []) :=
  ⟨by decide, TestableFuncs_never_empty_signature UnicodeTables.ascii sampleInfo none
    (some reInternal) ["TestUserSetName"] fnGetUser (by decide)⟩

/-! ## The reflection query -/

theorem UsesReflection.results_iff (rs : List Field) :
    UsesReflection.results rs = true ↔ ∃ r ∈ rs, r.IsBasicType = false := by
  induction rs with
  | nil => simp [UsesReflection.results]
  | cons r rs ih =>
    unfold UsesReflection.results
    cases hb : r.IsBasicType <;> simp [hb, ih]

theorem UsesReflection.funcs_iff (fs : List Function) :
    UsesReflection.funcs fs = true ↔ ∃ f ∈ fs, ∃ r ∈ f.Results, r.IsBasicType = false := by
  induction fs with
  | nil => simp [UsesReflection.funcs]
  | cons f fs ih =>
    unfold UsesReflection.funcs
    cases hb : UsesReflection.results f.Results with
    | true =>
      have := (UsesReflection.results_iff f.Results).mp hb
      simp [this]
    | false =>
      have hn : ¬ ∃ r ∈ f.Results, r.IsBasicType = false := by
        intro h
        rw [← UsesReflection.results_iff, hb] at h
        exact Bool.false_ne_true h
      simp only [Bool.false_eq_true, if_false, ih, List.exists_mem_cons_iff, hn, false_or]

theorem exists_results_forall₂ (l1 l2 : List Function)
    (h : List.Forall₂ (fun f g => f.Results.Perm g.Results) l1 l2) :
    (∃ f ∈ l1, ∃ r ∈ f.Results, r.IsBasicType = false) ↔
      (∃ g ∈ l2, ∃ r ∈ g.Results, r.IsBasicType = false) := by
  induction h with
  | nil => simp
  | cons hfg _ ih =>
    simp only [List.exists_mem_cons_iff, ih]
    constructor
    · rintro (⟨r, hr, hb⟩ | h)
      · exact Or.inl ⟨r, hfg.mem_iff.mp hr, hb⟩
      · exact Or.inr h
    · rintro (⟨r, hr, hb⟩ | h)
      · exact Or.inl ⟨r, hfg.mem_iff.mpr hr, hb⟩
      · exact Or.inr h

/-- C6. `UsesReflection()` is true if and only if some function of `Funcs`
has a result field whose `IsBasicType()` is false; it is false when every
result of every function is basic-typed (in particular when there are no
results). -/
theorem UsesReflection_iff_exists (i : SourceInfo) :
    (i.UsesReflection = true ↔ ∃ f ∈ i.Funcs, ∃ r ∈ f.Results, r.IsBasicType = false) ∧
    ((∀ f ∈ i.Funcs, ∀ r ∈ f.Results, r.IsBasicType = true) → i.UsesReflection = false) := by
  have h := UsesReflection.funcs_iff i.Funcs
  refine ⟨h, ?_⟩
  intro hall
  cases hu : i.UsesReflection with
  | false => rfl
  | true =>
    obtain ⟨f, hf, r, hr, hb⟩ := h.mp hu
    rw [hall f hf r hr] at hb
    exact absurd hb (by decide)

theorem UsesReflection_iff_exists_witness :
    (∀ f ∈ basicInfo.Funcs, ∀ r ∈ f.Results, r.IsBasicType = true) ∧
    basicInfo.UsesReflection = false :=
  ⟨by decide, (UsesReflection_iff_exists basicInfo).2 (by decide)⟩

/-- C7. `UsesReflection()` does not depend on the scan order: it returns
the same value on two `SourceInfo` values when the functions of the second
are, in any order, those of the first with their results permuted. -/
theorem UsesReflection_order_independent (i j : SourceInfo) (fs : List Function)
    (hres : List.Forall₂ (fun f g => f.Results.Perm g.Results) i.Funcs fs)
    (hperm : fs.Perm j.Funcs) :
    i.UsesReflection = j.UsesReflection := by
  rw [Bool.eq_iff_iff]
  unfold SourceInfo.UsesReflection
  rw [UsesReflection.funcs_iff, UsesReflection.funcs_iff, exists_results_forall₂ _ _ hres]
  constructor
  · rintro ⟨g, hg, h⟩
    exact ⟨g, hperm.mem_iff.mp hg, h⟩
  · rintro ⟨g, hg, h⟩
    exact ⟨g, hperm.mem_iff.mpr hg, h⟩

theorem UsesReflection_order_independent_witness :
    List.Forall₂ (fun f g => f.Results.Perm g.Results)
      (SourceInfo.mk none [fnPair, fnInit]).Funcs [fnPairSwapped, fnInit] ∧
    [fnPairSwapped, fnInit].Perm (SourceInfo.mk none [fnInit, fnPairSwapped]).Funcs ∧
    (SourceInfo.mk none [fnPair, fnInit]).UsesReflection
      = (SourceInfo.mk none [fnInit, fnPairSwapped]).UsesReflection :=
  ⟨List.Forall₂.cons (by decide) (List.Forall₂.cons (by decide) List.Forall₂.nil),
    by decide,
    UsesReflection_order_independent (SourceInfo.mk none [fnPair, fnInit])
      (SourceInfo.mk none [fnInit, fnPairSwapped]) [fnPairSwapped, fnInit]
      (List.Forall₂.cons (by decide) (List.Forall₂.cons (by decide) List.Forall₂.nil))
      (by decide)⟩

/-! ## Rendering and classification of type expressions -/

/-- C8. `String()` is `"[]"` when `IsVariadic`, followed by `"*"` when
`IsStar`, followed by `Value`; with both flags set it is `"[]*" + Value`. -/
theorem expression_string_eq (e : Expression) :
    e.String = (if e.IsVariadic then "[]" else "") ++ (if e.IsStar then "*" else "") ++ e.Value ∧
    (e.IsStar = true → e.IsVariadic = true → e.String = "[]*" ++ e.Value) := by
  obtain ⟨v, st, va⟩ := e
  have h1 : "[]" ++ ("*" ++ v) = "[]" ++ "*" ++ v := (String.append_assoc _ _ _).symm
  have h2 : "[]" ++ "*" = "[]*" := by decide
  have h3 : "" ++ "*" = "*" := by decide
  have h4 : "[]" ++ "" = "[]" := by decide
  have h5 : "" ++ "" = "" := by decide
  constructor
  · cases st <;> cases va <;>
      simp [Expression.String, h1, h3, h4, h5, String.empty_append]
  · intro hs hv
    simp only at hs hv
    subst hs hv
    simp [Expression.String, h1, h2]

theorem expression_string_eq_witness :
    (Expression.mk "T" true true).IsStar = true ∧
    (Expression.mk "T" true true).IsVariadic = true ∧
    (Expression.mk "T" true true).String = "[]*" ++ "T" :=
  ⟨rfl, rfl, (expression_string_eq (Expression.mk "T" true true)).2 rfl rfl⟩

/-- The `switch` of `IsBasicType` answers `true` exactly on the listed
names. -/
theorem IsBasicType_iff_mem (f : Field) :
    f.IsBasicType = true ↔ f.Typ.String ∈ basicTypeNames := by
  unfold Field.IsBasicType
  generalize f.Typ.String = s
  split <;> simp_all [basicTypeNames]

/-- An expression without decoration renders as its bare name. -/
theorem expression_string_plain (v : String) : (Expression.mk v false false).String = v := by
  simp [Expression.String]

/-- The strings on which a field is basic are those of the list. -/
theorem basic_strings_eq :
    {s : String | ∃ f : Field, f.Typ.String = s ∧ f.IsBasicType = true}
      = ↑basicTypeNames.toFinset := by
  ext s
  simp only [Set.mem_setOf_eq, Finset.mem_coe, List.mem_toFinset]
  constructor
  · rintro ⟨f, hf, hb⟩
    rw [← hf]
    exact (IsBasicType_iff_mem f).mp hb
  · intro hs
    refine ⟨⟨"", ⟨s, false, false⟩, 0⟩, expression_string_plain s, ?_⟩
    rw [IsBasicType_iff_mem]
    simpa [expression_string_plain] using hs

theorem basic_strings_ncard :
    Set.ncard {s : String | ∃ f : Field, f.Typ.String = s ∧ f.IsBasicType = true} = 19 := by
  rw [basic_strings_eq, Set.ncard_coe_Finset]
  decide

/-- C9, as stated, fails: the set of strings on which a field is basic
does not have exactly 17 elements. -/
theorem basic_strings_not_17 :
    Set.ncard {s : String | ∃ f : Field, f.Typ.String = s ∧ f.IsBasicType = true} ≠ 17 := by
  rw [basic_strings_ncard]
  decide

/-- C9, amended. `IsBasicType()` depends only on `Type.String()`, and the
strings on which a field is basic form a fixed set of exactly 19 names:
those of `basicTypeNames`, which are pairwise distinct (`bool`, `string`,
the signed and unsigned integers at widths 8/16/32/64 and machine width,
`uintptr`, `byte`, `rune`, the two floats and the two complex types). -/
theorem IsBasicType_whitelist :
    (∀ f g : Field, f.Typ.String = g.Typ.String → f.IsBasicType = g.IsBasicType) ∧
    (∀ f : Field, f.IsBasicType = true ↔ f.Typ.String ∈ basicTypeNames) ∧
    basicTypeNames.Nodup ∧ basicTypeNames.length = 19 ∧
    Set.ncard {s : String | ∃ f : Field, f.Typ.String = s ∧ f.IsBasicType = true} = 19 := by
  refine ⟨?_, IsBasicType_iff_mem, by decide, by decide, basic_strings_ncard⟩
  intro f g h
  unfold Field.IsBasicType
  rw [h]

theorem IsBasicType_whitelist_witness :
    (Field.mk "a" ⟨"*int", false, false⟩ 0).Typ.String
      = (Field.mk "b" ⟨"int", true, false⟩ 1).Typ.String ∧
    (Field.mk "a" ⟨"*int", false, false⟩ 0).IsBasicType
      = (Field.mk "b" ⟨"int", true, false⟩ 1).IsBasicType :=
  ⟨by decide, IsBasicType_whitelist.1 _ _ (by decide)⟩

/-- A string that starts with `*` or with `[]` is none of the listed
names. -/
theorem not_mem_basicTypeNames_of_decorated (s : String)
    (h : HasPrefix s "*" = true ∨ HasPrefix s "[]" = true) : s ∉ basicTypeNames := by
  intro hs
  simp only [basicTypeNames, List.mem_cons, List.mem_singleton, List.not_mem_nil, or_false] at hs
  rcases hs with hs | hs | hs | hs | hs | hs | hs | hs | hs | hs | hs | hs | hs | hs | hs | hs
    | hs | hs | hs <;> subst hs <;> revert h <;> decide

/-- A starred or variadic expression renders with a leading `*` or `[]`. -/
theorem expression_string_decorated (e : Expression)
    (h : e.IsStar = true ∨ e.IsVariadic = true) :
    HasPrefix e.String "*" = true ∨ HasPrefix e.String "[]" = true := by
  obtain ⟨v, st, va⟩ := e
  have hstar : ("*" ++ v).data = '*' :: v.data := by
    rw [String.data_append]; rfl
  have hvar : ∀ w : String, ("[]" ++ w).data = '[' :: ']' :: w.data := by
    intro w; rw [String.data_append]; rfl
  cases va with
  | true =>
    right
    cases st <;> simp [Expression.String, HasPrefix, hvar, List.isPrefixOf]
  | false =>
    cases st with
    | true =>
      left
      simp [Expression.String, HasPrefix, hstar, List.isPrefixOf]
    | false => simp at h

/-- C10. A field whose type is starred or variadic, or whose rendered type
starts with `*` or `[]`, is not basic, whatever its `Value`. -/
theorem IsBasicType_false_of_decorated (f : Field)
    (h : f.Typ.IsStar = true ∨ f.Typ.IsVariadic = true ∨
      HasPrefix f.Typ.String "*" = true ∨ HasPrefix f.Typ.String "[]" = true) :
    f.IsBasicType = false := by
  have hp : HasPrefix f.Typ.String "*" = true ∨ HasPrefix f.Typ.String "[]" = true := by
    rcases h with h | h | h | h
    · exact expression_string_decorated _ (Or.inl h)
    · exact expression_string_decorated _ (Or.inr h)
    · exact Or.inl h
    · exact Or.inr h
  cases hb : f.IsBasicType with
  | false => rfl
  | true =>
    exact absurd ((IsBasicType_iff_mem f).mp hb) (not_mem_basicTypeNames_of_decorated _ hp)

theorem IsBasicType_false_of_decorated_witness :
    ((Field.mk "p" ⟨"int", true, false⟩ 0).Typ.IsStar = true ∨
      (Field.mk "p" ⟨"int", true, false⟩ 0).Typ.IsVariadic = true ∨
      HasPrefix (Field.mk "p" ⟨"int", true, false⟩ 0).Typ.String "*" = true ∨
      HasPrefix (Field.mk "p" ⟨"int", true, false⟩ 0).Typ.String "[]" = true) ∧
    (Field.mk "p" ⟨"int", true, false⟩ 0).IsBasicType = false :=
  ⟨Or.inl rfl, IsBasicType_false_of_decorated (Field.mk "p" ⟨"int", true, false⟩ 0) (Or.inl rfl)⟩

/-! ## Path naming -/

/-- The model of `strings.HasSuffix` holds exactly of the strings that end
with the suffix. -/
theorem HasSuffix_iff (s suf : String) :
    HasSuffix s suf = true ↔ ∃ q : String, s = q ++ suf := by
  unfold HasSuffix
  rw [List.isSuffixOf_iff_suffix]
  constructor
  · rintro ⟨t, ht⟩
    exact ⟨⟨t⟩, String.ext (by rw [String.data_append]; exact ht.symm)⟩
  · rintro ⟨q, rfl⟩
    exact ⟨q.data, (String.data_append q suf).symm⟩

/-- The model of `strings.TrimSuffix` removes one trailing suffix. -/
theorem TrimSuffix_append (q suf : String) : TrimSuffix (q ++ suf) suf = q := by
  have h : HasSuffix (q ++ suf) suf = true := (HasSuffix_iff _ _).mpr ⟨q, rfl⟩
  unfold TrimSuffix
  rw [if_pos h]
  apply String.ext
  simp [String.data_append]

/-- The model of `strings.TrimSuffix` returns a string without the suffix
as it is. -/
theorem TrimSuffix_of_not (s suf : String) (h : ¬ ∃ q : String, s = q ++ suf) :
    TrimSuffix s suf = s := by
  unfold TrimSuffix
  rw [if_neg]
  intro hs
  exact h ((HasSuffix_iff s suf).mp hs)

/-- The path that `TestPath` computes is a test path. -/
theorem isTestPath_testPath (p : Path) : Path.IsTestPath (Path.TestPath p) = true := by
  unfold Path.TestPath
  by_cases h : Path.IsTestPath p = true
  · rw [if_pos h]; exact h
  · rw [if_neg h]
    exact (HasSuffix_iff _ _).mpr ⟨TrimSuffix p ".go", rfl⟩

/-- C12. `IsTestPath()` is true iff the path ends with `_test.go`; on a
test path `TestPath()` is the path itself; otherwise it is the path with
one trailing `.go` removed (the path itself when it does not end with
`.go`) followed by `_test.go`. -/
theorem TestPath_spec (p : Path) :
    (Path.IsTestPath p = true ↔ ∃ q : String, p = q ++ "_test.go") ∧
    (Path.IsTestPath p = true → Path.TestPath p = p) ∧
    (Path.IsTestPath p = false →
      (∀ q : String, p = q ++ ".go" → Path.TestPath p = q ++ "_test.go") ∧
      ((¬ ∃ q : String, p = q ++ ".go") → Path.TestPath p = p ++ "_test.go")) := by
  refine ⟨HasSuffix_iff p "_test.go", ?_, ?_⟩
  · intro h
    unfold Path.TestPath
    rw [if_pos h]
  · intro h
    have hn : ¬ Path.IsTestPath p = true := by rw [h]; decide
    constructor
    · intro q hq
      unfold Path.TestPath
      rw [if_neg hn, hq, TrimSuffix_append]
    · intro hq
      unfold Path.TestPath
      rw [if_neg hn, TrimSuffix_of_not p ".go" hq]

theorem TestPath_spec_witness :
    Path.IsTestPath "a/b.go" = false ∧ "a/b.go" = "a/b" ++ ".go" ∧
    Path.TestPath "a/b.go" = "a/b_test.go" :=
  ⟨by decide, by decide,
    (((TestPath_spec "a/b.go").2.2 (by decide)).1 "a/b" (by decide)).trans (by decide)⟩

/-- C13. `TestPath` is idempotent. -/
theorem TestPath_idempotent (p : Path) :
    Path.TestPath (Path.TestPath p) = Path.TestPath p := by
  have h := isTestPath_testPath p
  generalize Path.TestPath p = q at h
  unfold Path.TestPath
  rw [if_pos h]

theorem TestPath_idempotent_witness :
    Path.TestPath "a/b.go" = "a/b_test.go" ∧ Path.TestPath "a/b_test.go" = "a/b_test.go" ∧
    Path.TestPath (Path.TestPath "a/b.go") = Path.TestPath "a/b.go" :=
  ⟨by decide, by decide, TestPath_idempotent "a/b.go"⟩

/-- C20. The destination computed by `TestPath` is always a test path, also
for the empty path and for paths that do not end with `.go`. -/
theorem TestPath_isTestPath (p : Path) :
    Path.IsTestPath (Path.TestPath p) = true ∧
    Path.IsTestPath (Path.TestPath "") = true ∧
    Path.IsTestPath (Path.TestPath "README") = true :=
  ⟨isTestPath_testPath p, isTestPath_testPath "", isTestPath_testPath "README"⟩

/-! ## Derived names -/

/-- Title-casing the empty string gives the empty string. -/
theorem Title_empty (U : UnicodeTables) : Title U "" = "" := rfl

/-- C11. `TestName()` is `"Test"`, then the title-cased bare type name of
the receiver (the empty string without a receiver), then the title-cased
function name; title-casing the empty string gives the empty string, so a
receiver with an empty bare type name gives the test name of the function
without receiver.  Receiver `Foo` with method `bar` gives `TestFooBar`, the
free function `baz` gives `TestBaz`. -/
theorem TestName_spec (U : UnicodeTables) (f : Function) :
    f.TestName U = "Test" ++ Title U (match f.Receiver with
        | some recv => recv.Typ.Value
        | none => "") ++ Title U f.Name ∧
    Title U "" = "" ∧
    (∀ recv : Field, f.Receiver = some recv → recv.Typ.Value = "" →
      f.TestName U = Function.TestName U { f with Receiver := none }) ∧
    fnFooBarMethod.TestName U = "TestFooBar" ∧ fnBaz.TestName U = "TestBaz" := by
  refine ⟨rfl, rfl, ?_, rfl, rfl⟩
  intro recv hr hv
  unfold Function.TestName
  simp only [hr, hv]

theorem TestName_spec_witness :
    fnBlankReceiver.Receiver = some { Name := "r", Typ := ⟨"", false, false⟩, Index := 0 } ∧
    fnBlankReceiver.TestName UnicodeTables.ascii = fnBaz.TestName UnicodeTables.ascii :=
  ⟨rfl, (TestName_spec UnicodeTables.ascii fnBlankReceiver).2.2.1 _ rfl rfl⟩

/-- `ShortName` returns a value exactly on a non-empty bare type name. -/
theorem ShortName_isSome_iff (U : UnicodeTables) (f : Field) :
    (f.ShortName U).isSome = true ↔ f.Typ.Value ≠ "" := by
  unfold Field.ShortName
  rw [Ne, String.ext_iff]
  cases h : f.Typ.Value.data <;> simp

/-- Lower-casing a one-rune string lower-cases the rune. -/
theorem ToLower_singleton (U : UnicodeTables) (c : Char) :
    ToLower U (String.singleton c) = String.singleton (unicodeToLower U c) := rfl

/-- C14. On a field whose bare type name is non-empty, `ShortName()` is the
lower-cased first character of the bare type name, and any field with the
same bare type name (whatever its `IsStar`, `IsVariadic`, `Name` and
`Index`) has the same `ShortName()`. -/
theorem ShortName_spec (U : UnicodeTables) (f : Field) (hne : f.Typ.Value ≠ "") :
    (∃ (c : Char) (cs : List Char), f.Typ.Value.data = c :: cs ∧
      f.ShortName U = some (ToLower U (String.singleton c)) ∧
      f.ShortName U = some (String.singleton (unicodeToLower U c))) ∧
    (∀ (name : String) (star variadic : Bool) (index : Int),
      Field.ShortName U ⟨name, ⟨f.Typ.Value, star, variadic⟩, index⟩ = f.ShortName U) := by
  constructor
  · cases h : f.Typ.Value.data with
    | nil => exact absurd (String.ext (by rw [h])) hne
    | cons c cs =>
      refine ⟨c, cs, rfl, ?_, ?_⟩ <;> simp [Field.ShortName, h, ToLower_singleton]
  · intro name star variadic index
    rfl

theorem ShortName_spec_witness :
    (Field.mk "u" ⟨"User", true, false⟩ 0).Typ.Value ≠ "" ∧
    (Field.mk "u" ⟨"User", true, false⟩ 0).ShortName UnicodeTables.ascii = some "u" ∧
    Field.ShortName UnicodeTables.ascii ⟨"args", ⟨"User", false, true⟩, 2⟩
      = (Field.mk "u" ⟨"User", true, false⟩ 0).ShortName UnicodeTables.ascii :=
  ⟨by decide, by decide,
    (ShortName_spec UnicodeTables.ascii (Field.mk "u" ⟨"User", true, false⟩ 0) (by decide)).2
      "args" false true 2⟩

/-- C15, as stated, fails: `ShortName()` does not return a value on every
field; on an empty bare type name the index `[0]` is out of range. -/
theorem ShortName_not_total :
    ¬ ∀ (U : UnicodeTables) (f : Field), (f.ShortName U).isSome = true := by
  intro h
  exact absurd (h UnicodeTables.ascii (Field.mk "x" ⟨"", false, false⟩ 0)) (by decide)

/-- C15, amended. On every field `IsBasicType()` and `IsNamed()` return a
value, whatever the bare type name: `IsBasicType()` is true exactly on the
listed names and `IsNamed()` exactly on a name that is neither empty nor
`_`; `ShortName()` returns a value exactly when the bare type name is
non-empty. -/
theorem field_operations_total (U : UnicodeTables) (f : Field) :
    ((f.ShortName U).isSome = true ↔ f.Typ.Value ≠ "") ∧
    (f.IsBasicType = true ↔ f.Typ.String ∈ basicTypeNames) ∧
    (f.IsBasicType = false ↔ f.Typ.String ∉ basicTypeNames) ∧
    (f.IsNamed = true ↔ f.Name ≠ "" ∧ f.Name ≠ "_") ∧
    (f.IsNamed = false ↔ f.Name = "" ∨ f.Name = "_") := by
  refine ⟨ShortName_isSome_iff U f, IsBasicType_iff_mem f, ?_, ?_, ?_⟩
  · rw [← IsBasicType_iff_mem, Bool.not_eq_true]
  · simp [Field.IsNamed]
  · simp only [Field.IsNamed, Bool.and_eq_false_iff, bne_eq_false_iff_eq]

theorem field_operations_total_witness :
    (Field.mk "x" ⟨"", false, false⟩ 0).ShortName UnicodeTables.ascii = none ∧
    (Field.mk "x" ⟨"", false, false⟩ 0).IsBasicType = false ∧
    (Field.mk "x" ⟨"", false, false⟩ 0).IsNamed = true ∧
    (((Field.mk "x" ⟨"", false, false⟩ 0).ShortName UnicodeTables.ascii).isSome = true ↔
      (Field.mk "x" ⟨"", false, false⟩ 0).Typ.Value ≠ "") :=
  ⟨by decide, by decide, by decide,
    (field_operations_total UnicodeTables.ascii (Field.mk "x" ⟨"", false, false⟩ 0)).1⟩

/-! ## Result shapes -/

/-- C17. `ReturnsMultiple()` is true iff there is more than one result;
`OnlyReturnsOneValue()` iff there is exactly one result and `ReturnsError`
is false; `OnlyReturnsError()` iff there is no result and `ReturnsError` is
true; so no two of the three hold together. -/
theorem result_shape_predicates (f : Function) :
    (f.ReturnsMultiple = true ↔ f.Results.length > 1) ∧
    (f.OnlyReturnsOneValue = true ↔ f.Results.length = 1 ∧ f.ReturnsError = false) ∧
    (f.OnlyReturnsError = true ↔ f.Results.length = 0 ∧ f.ReturnsError = true) ∧
    ¬ (f.ReturnsMultiple = true ∧ f.OnlyReturnsOneValue = true) ∧
    ¬ (f.ReturnsMultiple = true ∧ f.OnlyReturnsError = true) ∧
    ¬ (f.OnlyReturnsOneValue = true ∧ f.OnlyReturnsError = true) := by
  unfold Function.ReturnsMultiple Function.OnlyReturnsOneValue Function.OnlyReturnsError
  simp only [decide_eq_true_eq, Bool.and_eq_true, Bool.not_eq_true']
  refine ⟨trivial, trivial, trivial, ?_, ?_, ?_⟩
  · rintro ⟨h1, h2, _⟩; omega
  · rintro ⟨h1, h2, _⟩; omega
  · rintro ⟨⟨h1, _⟩, h2, _⟩; omega

/-! ## The already-tested names: effect, membership, collisions -/

/-- C16, as stated, fails: after a call the caller's `alreadyTested` slice
need not hold its names in the positions they had before. -/
theorem TestableFuncs_reorders_alreadyTested :
    (sampleInfo.TestableFuncsCall UnicodeTables.ascii none none
      ["TestGetUser", "TestGetInternal"]).testFuncs ≠ ["TestGetUser", "TestGetInternal"] := by
  decide

/-- C16, amended. A call of `TestableFuncs` leaves the `Funcs` of the
`SourceInfo` unchanged and sorts the caller's `alreadyTested` slice in
place: afterwards the slice holds the same names, each as often as before,
in ascending order; the names keep their positions when the slice was
already in ascending order. -/
theorem TestableFuncs_effect (U : UnicodeTables) (i : SourceInfo)
    (only excl : Option Regexp) (alreadyTested : List String) :
    (i.TestableFuncsCall U only excl alreadyTested).Funcs = i.Funcs ∧
    (i.TestableFuncsCall U only excl alreadyTested).testFuncs.Perm alreadyTested ∧
    (i.TestableFuncsCall U only excl alreadyTested).testFuncs.Sorted strLE ∧
    (alreadyTested.Sorted strLE →
      (i.TestableFuncsCall U only excl alreadyTested).testFuncs = alreadyTested) :=
  ⟨rfl, sortStrings_perm alreadyTested, sortStrings_sorted alreadyTested,
    fun h => List.Sorted.insertionSort_eq h⟩

theorem TestableFuncs_effect_witness :
    ["TestGetInternal", "TestGetUser"].Sorted strLE ∧
    (sampleInfo.TestableFuncsCall UnicodeTables.ascii none none
      ["TestGetInternal", "TestGetUser"]).testFuncs = ["TestGetInternal", "TestGetUser"] :=
  ⟨by decide, (TestableFuncs_effect UnicodeTables.ascii sampleInfo none none
    ["TestGetInternal", "TestGetUser"]).2.2.2 (by decide)⟩

/-- C18. On a list of strings in ascending order, duplicates allowed,
`contains(ss, s)` is true if and only if `s` is an element of `ss`. -/
theorem contains_correct_on_sorted (ss : List String) (s : String)
    (hsorted : ss.Sorted strLE) :
    contains ss s = true ↔ s ∈ ss :=
  contains_iff_mem ss s hsorted

theorem contains_correct_on_sorted_witness :
    ["a", "b", "b", "c"].Sorted strLE ∧
    (contains ["a", "b", "b", "c"] "b" = true ↔ "b" ∈ ["a", "b", "b", "c"]) ∧
    contains ["a", "b", "b", "c"] "b" = true ∧ contains ["a", "b", "b", "c"] "bb" = false :=
  ⟨by decide, contains_correct_on_sorted ["a", "b", "b", "c"] "b" (by decide),
    by decide, by decide⟩

/-- C19. `TestName` is not injective, and the collision reaches the
selection: the method `bar` on receiver type `Foo` and the free function
`FooBar`, which differ in name and signature and both have a parameter,
both have the test name `TestFooBar`, and `TestableFuncs(nil, nil,
["TestFooBar"])` on a `SourceInfo` holding the two returns neither, while
with nothing already tested it returns both. -/
theorem TestName_collision (U : UnicodeTables) :
    (∃ f g : Function, f ≠ g ∧ f.TestName U = g.TestName U) ∧
    collisionInfo.Funcs = [fnFooBarMethod, fnFooBarFree] ∧
    fnFooBarMethod.Name ≠ fnFooBarFree.Name ∧
    fnFooBarMethod.Receiver ≠ fnFooBarFree.Receiver ∧
    fnFooBarMethod.Parameters ≠ fnFooBarFree.Parameters ∧
    fnFooBarMethod.Results ≠ fnFooBarFree.Results ∧
    fnFooBarMethod.Parameters ≠ [] ∧ fnFooBarFree.Parameters ≠ [] ∧
    fnFooBarMethod.TestName U = "TestFooBar" ∧ fnFooBarFree.TestName U = "TestFooBar" ∧
    collisionInfo.TestableFuncs U none none ["TestFooBar"] = [] ∧
    collisionInfo.TestableFuncs U none none [] = [fnFooBarMethod, fnFooBarFree] :=
  ⟨⟨fnFooBarMethod, fnFooBarFree, by decide, rfl⟩, rfl, by decide, by decide, by decide,
    by decide, by decide, by decide, rfl, rfl, rfl, rfl⟩

end Models
